import Mathlib

/-!
Verification development for the DMBA claims-history extractor
(src/extract_claims_to_csv.py).  The Python source is shallowly embedded:
strings become lists of characters, regular-expression matching is realised
by hand-specialised backtracking matchers that follow the Python engine's
preference order (greedy or lazy quantifiers, ordered alternation,
leftmost search), and the page-processing loop becomes an explicit fold
over a list of page texts.  Fallible steps (the assertion inside
parse_service_row) are modelled with Option.

The document-to-text extraction is an external collaborator, so a page is
modelled by its raw text.  Two pieces of the source with no effect on the
output are not embedded: the page_footer_number call, whose result the
loop discards, and the unused TOTALS_RE pattern.
-/

namespace Claims

/-- Characters treated as whitespace by Python's str.strip, str.split and
by the regex class backslash-s on text patterns (ASCII part plus the
common Unicode space characters). -/
def isPySpace (c : Char) : Bool :=
  c = ' ' || c = '\t' || c = '\n' || c = '\x0b' || c = '\x0c' || c = '\r' ||
  c = '\x1c' || c = '\x1d' || c = '\x1e' || c = '\x1f' ||
  c = Char.ofNat 0x85 || c = Char.ofNat 0xa0 || c = Char.ofNat 0x1680 ||
  (Char.ofNat 0x2000 ≤ c && c ≤ Char.ofNat 0x200a) ||
  c = Char.ofNat 0x2028 || c = Char.ofNat 0x2029 ||
  c = Char.ofNat 0x202f || c = Char.ofNat 0x205f || c = Char.ofNat 0x3000

/-- Line-break characters recognised by Python's str.splitlines
(the pair carriage-return line-feed is handled separately). -/
def isLineBreakChar (c : Char) : Bool :=
  c = '\n' || c = '\r' || c = '\x0b' || c = '\x0c' ||
  c = '\x1c' || c = '\x1d' || c = '\x1e' ||
  c = Char.ofNat 0x85 || c = Char.ofNat 0x2028 || c = Char.ofNat 0x2029

/-- The horizontal-whitespace class [ tab] used by normalize_page_text. -/
def isHT (c : Char) : Bool := c = ' ' || c = '\t'

/-- Word characters for the regex word-boundary; non-ASCII characters that
are not whitespace are conservatively treated as word characters. -/
def isWordChar (c : Char) : Bool :=
  c.isAlphanum || c = '_' || (128 ≤ c.toNat && !isPySpace c)

/-- Python str.strip: drop whitespace from both ends. -/
def pyStrip (s : List Char) : List Char :=
  ((s.dropWhile isPySpace).reverse.dropWhile isPySpace).reverse

/-- Collapse each leading run of carriage-return line-feed into a single
line feed, as Python's splitlines treats the pair as one break. -/
def crlf : List Char → List Char
  | [] => []
  | '\r' :: '\n' :: cs => '\n' :: crlf cs
  | c :: cs => c :: crlf cs

/-- Worker for splitlines over single-character breaks. -/
def splitlinesAux : List Char → List Char → List (List Char)
  | [], acc => [acc.reverse]
  | c :: cs, acc =>
    if isLineBreakChar c then
      if cs.isEmpty then [acc.reverse] else acc.reverse :: splitlinesAux cs []
    else splitlinesAux cs (c :: acc)

/-- Python str.splitlines. -/
def pySplitlines (s : List Char) : List (List Char) :=
  match crlf s with
  | [] => []
  | s' => splitlinesAux s' []

/-- Worker replacing runs of two or more horizontal whitespace
characters by one space; the flag records being inside a run whose
space was already emitted. -/
def collapseHTAux : Bool → List Char → List Char
  | _, [] => []
  | inRun, c :: cs =>
    if isHT c then
      if inRun then collapseHTAux true cs
      else
        if (cs.head?.map isHT).getD false then ' ' :: collapseHTAux true cs
        else c :: collapseHTAux false cs
    else c :: collapseHTAux false cs

/-- Replace each run of two or more horizontal whitespace characters by a
single space: the substitution of the pattern [ tab]{2,} in
normalize_page_text.  A lone space or tab is kept as it is. -/
def collapseHT (s : List Char) : List Char := collapseHTAux false s

/-- Worker replacing each maximal whitespace run by one space; the flag
records being inside a run. -/
def collapseWsAllAux : Bool → List Char → List Char
  | _, [] => []
  | inRun, c :: cs =>
    if isPySpace c then
      if inRun then collapseWsAllAux true cs
      else ' ' :: collapseWsAllAux true cs
    else c :: collapseWsAllAux false cs

/-- Replace each maximal run of whitespace by a single space: the
substitution of backslash-s+ used when a buffer is finalised. -/
def collapseWsAll (s : List Char) : List Char := collapseWsAllAux false s

/-- No two adjacent horizontal whitespace characters: the absence of
any run of two or more spaces or tabs. -/
def noDoubleHT : List Char → Bool
  | [] => true
  | [_] => true
  | a :: b :: cs => (!(isHT a && isHT b)) && noDoubleHT (b :: cs)

/-- The character substituted for the non-breaking space. -/
def nbspChar : Char := Char.ofNat 0xa0

/-- normalize_page_text: replace non-breaking spaces, split into lines,
collapse inner runs of horizontal whitespace, and trim each line. -/
def normalize_page_text (rawText : List Char) : List (List Char) :=
  (pySplitlines (rawText.map (fun c => if c = nbspChar then ' ' else c))).map
    (fun ln => pyStrip (collapseHT ln))

/-- Worker for whitespace splitting, carrying the current token in
reverse. -/
def wsTokensAux (cur : List Char) : List Char → List (List Char)
  | [] => if cur.isEmpty then [] else [cur.reverse]
  | c :: cs =>
    if isPySpace c then
      if cur.isEmpty then wsTokensAux [] cs
      else cur.reverse :: wsTokensAux [] cs
    else wsTokensAux (c :: cur) cs

/-- Python str.split with no separator: the maximal whitespace-free tokens. -/
def wsTokens (s : List Char) : List (List Char) := wsTokensAux [] s

/-- Join the whitespace-split tokens of a string with single spaces: the
normalization applied to every captured header field. -/
def squashWs (s : List Char) : List Char :=
  List.intercalate [' '] (wsTokens s)

/-! ### A model of Python's Decimal, as used by the currency normalizer -/

/-- A parsed decimal value: finite (sign, coefficient, exponent), an
infinity, or a quiet or signaling not-a-number with its diagnostic. -/
inductive PyDec where
  | fin (neg : Bool) (coeff : Nat) (exp : Int)
  | inf (neg : Bool)
  | nan (neg : Bool) (signaling : Bool) (diag : List Char)
deriving DecidableEq

/-- Digits of a numeral, most significant first, folded to a number. -/
def digitsToNat (ds : List Char) : Nat :=
  ds.foldl (fun n c => n * 10 + (c.toNat - 48)) 0

/-- Parse the optional exponent part of a decimal numeric string; the
whole remainder must be consumed. -/
def parseDecExp : List Char → Option Int
  | [] => some 0
  | c :: r =>
    if c = 'e' || c = 'E' then
      match r with
      | '+' :: ds => if !ds.isEmpty && ds.all Char.isDigit then some (digitsToNat ds) else none
      | '-' :: ds => if !ds.isEmpty && ds.all Char.isDigit then some (-(digitsToNat ds : Int)) else none
      | ds => if !ds.isEmpty && ds.all Char.isDigit then some (digitsToNat ds) else none
    else none

/-- Parse an unsigned finite decimal body: digits with an optional single
point, at least one digit in total, then an optional exponent. -/
def parseDecBody (s : List Char) : Option (Nat × Int) :=
  let ip := s.takeWhile Char.isDigit
  let r1 := s.drop ip.length
  match r1 with
  | '.' :: r2 =>
    let fp := r2.takeWhile Char.isDigit
    let r3 := r2.drop fp.length
    if ip.length + fp.length = 0 then none
    else
      match parseDecExp r3 with
      | some e => some (digitsToNat (ip ++ fp), e - (fp.length : Int))
      | none => none
  | _ =>
    if ip.isEmpty then none
    else
      match parseDecExp r1 with
      | some e => some (digitsToNat ip, e)
      | none => none

/-- Case-insensitive comparison against a lower-case literal. -/
def ciIs (body : List Char) (lit : List Char) : Bool :=
  body.map Char.toLower = lit

/-- The special-value bodies: infinities and not-a-numbers with an
optional digit diagnostic. -/
def parseDecSpecial (neg : Bool) (body : List Char) : Option PyDec :=
  let low := body.map Char.toLower
  if ciIs body ['i', 'n', 'f'] || ciIs body ['i', 'n', 'f', 'i', 'n', 'i', 't', 'y'] then
    some (.inf neg)
  else if low.take 4 = ['s', 'n', 'a', 'n'] && (low.drop 4).all Char.isDigit then
    some (.nan neg true (body.drop 4))
  else if low.take 3 = ['n', 'a', 'n'] && (low.drop 3).all Char.isDigit then
    some (.nan neg false (body.drop 3))
  else none

/-- Parse a string the way the Decimal constructor does: strip whitespace
at the ends, remove underscores, take an optional sign, then either a
finite numeric body or a special value. -/
def parsePyDec (s0 : List Char) : Option PyDec :=
  let s := (pyStrip s0).filter (fun c => c ≠ '_')
  let (neg, body) :=
    match s with
    | '+' :: t => (false, t)
    | '-' :: t => (true, t)
    | t => (false, t)
  match parseDecBody body with
  | some (c, e) => some (.fin neg c e)
  | none => parseDecSpecial neg body

/-- Decimal digits of a natural number, most significant first. -/
def natDigits (n : Nat) : List Char := Nat.toDigits 10 n

/-- Two-digit zero-padded rendering of a number below one hundred. -/
def pad2 (n : Nat) : List Char :=
  if n < 10 then '0' :: natDigits n else natDigits n

/-- Round coeff times ten to the exp, scaled by one hundred, to an
integer using round-half-even: the value printed by a two-decimal fixed
format. -/
def scaled2 (coeff : Nat) (exp : Int) : Nat :=
  if 0 ≤ exp + 2 then coeff * 10 ^ (exp + 2).toNat
  else
    let p := 10 ^ (-(exp + 2)).toNat
    let q := coeff / p
    let r := coeff % p
    q + (if p < 2 * r then 1 else if 2 * r < p then 0 else q % 2)

/-- Canonical diagnostic of a not-a-number as stored by Decimal. -/
def nanDiag (diag : List Char) : List Char :=
  if diag.isEmpty then []
  else
    let t := diag.dropWhile (fun c => c = '0')
    if t.isEmpty then ['0'] else t

/-- Fixed two-decimal formatting of a parsed decimal, following the
format specification ".2f" (half-even rounding; special values are
printed as text). -/
def formatDec2 : PyDec → List Char
  | .fin neg coeff exp =>
    let n := scaled2 coeff exp
    (if neg then ['-'] else []) ++ natDigits (n / 100) ++ '.' :: pad2 (n % 100)
  | .inf neg => (if neg then ['-'] else []) ++ ['I', 'n', 'f', 'i', 'n', 'i', 't', 'y']
  | .nan neg sig diag =>
    (if neg then ['-'] else []) ++
      (if sig then ['s', 'N', 'a', 'N'] else ['N', 'a', 'N']) ++ nanDiag diag

/-- The stripping phase of the currency normalizer: trim, delete commas,
drop one leading dollar sign, turn a parenthesised value into a negated
one, then delete any remaining dollar signs. -/
def moneyStrip (val : List Char) : List Char :=
  let s1 := (pyStrip val).filter (fun c => c ≠ ',')
  let s2 := if s1.head? = some '$' then s1.tail else s1
  let s3 :=
    if s2.head? = some '(' && s2.getLast? = some ')' then
      '-' :: (s2.drop 1).dropLast
    else s2
  s3.filter (fun c => c ≠ '$')

/-- The currency normalizer: strip the token; if the result parses as a
decimal, render it with two decimals, otherwise return the stripped
token itself. -/
def _money_to_str (val : List Char) : List Char :=
  let s := moneyStrip val
  match parsePyDec s with
  | some d => formatDec2 d
  | none => s

/-! ### Backtracking matchers in continuation-passing style

Each combinator explores its alternatives in the preference order of the
Python engine and hands the unconsumed remainder to the continuation;
the first success wins. -/

/-- Greedy optional literal character: try consuming it first. -/
def optTok (t : Char) (s : List Char) (k : List Char → Option α) : Option α :=
  match s with
  | c :: cs => if c = t then (k cs).orElse (fun _ => k (c :: cs)) else k (c :: cs)
  | [] => k []

/-- Try dropping n, n-1, ..., 1 characters, preferring the longest. -/
def tryDownFromOne (s : List Char) (k : List Char → Option α) : Nat → Option α
  | 0 => none
  | n + 1 => (k (s.drop (n + 1))).orElse (fun _ => tryDownFromOne s k n)

/-- Greedy one-or-more repetition of a character class. -/
def plusGreedy (p : Char → Bool) (s : List Char) (k : List Char → Option α) : Option α :=
  tryDownFromOne s k (s.takeWhile p).length

/-- Try dropping n, n-1, ..., 0 characters, preferring the longest. -/
def tryDownFromZero (s : List Char) (k : List Char → Option α) : Nat → Option α
  | 0 => k s
  | n + 1 => (k (s.drop (n + 1))).orElse (fun _ => tryDownFromZero s k n)

/-- Greedy zero-or-more repetition of a character class. -/
def starGreedy (p : Char → Bool) (s : List Char) (k : List Char → Option α) : Option α :=
  tryDownFromZero s k (s.takeWhile p).length

/-- Greedy star of a comma followed by three digits: the thousands
groups inside the currency pattern. -/
def commaGroups (s : List Char) (k : List Char → Option α) : Option α :=
  match s with
  | ',' :: a :: b :: c :: rest =>
    if a.isDigit && b.isDigit && c.isDigit then
      (commaGroups rest k).orElse (fun _ => k (',' :: a :: b :: c :: rest))
    else k (',' :: a :: b :: c :: rest)
  | s => k s

/-- Greedy one-to-three digits. -/
def digits13 (s : List Char) (k : List Char → Option α) : Option α :=
  let n := (s.takeWhile Char.isDigit).length
  if 3 ≤ n then (k (s.drop 3)).orElse fun _ => (k (s.drop 2)).orElse fun _ => k (s.drop 1)
  else if n = 2 then (k (s.drop 2)).orElse fun _ => k (s.drop 1)
  else if n = 1 then k (s.drop 1)
  else none

/-- The number core of the currency pattern: one-to-three digits with
thousands groups, or else a plain digit run. -/
def currencyNumber (s : List Char) (k : List Char → Option α) : Option α :=
  (digits13 s (fun r => commaGroups r k)).orElse fun _ =>
    plusGreedy Char.isDigit s k

/-- Greedy optional point followed by exactly two digits. -/
def optCents (s : List Char) (k : List Char → Option α) : Option α :=
  match s with
  | '.' :: a :: b :: rest =>
    if a.isDigit && b.isDigit then (k rest).orElse (fun _ => k ('.' :: a :: b :: rest))
    else k ('.' :: a :: b :: rest)
  | s => k s

/-- The CURRENCY pattern: optional opening parenthesis, minus and dollar
sign, the number core, optional cents, optional closing parenthesis. -/
def currencyCPS (s : List Char) (k : List Char → Option α) : Option α :=
  optTok '(' s fun s1 =>
  optTok '-' s1 fun s2 =>
  optTok '$' s2 fun s3 =>
  currencyNumber s3 fun s4 =>
  optCents s4 fun s5 =>
  optTok ')' s5 k

/-- Count of non-overlapping currency matches from left to right, as
findall produces.  Every currency match consumes at least one character,
so the length of the text is enough fuel. -/
def currencyFindallAux : Nat → List Char → Nat
  | 0, _ => 0
  | _, [] => 0
  | fuel + 1, c :: cs =>
    match currencyCPS (c :: cs) (fun rest => some rest) with
    | some rest => 1 + currencyFindallAux fuel rest
    | none => currencyFindallAux fuel cs

/-- Number of matches of the CURRENCY pattern in a string. -/
def currencyFindallCount (s : List Char) : Nat :=
  currencyFindallAux (s.length + 1) s

/-- Lazy star of any character except the line feed, counting the
consumed characters: the description group of the service-row shape. -/
def lazyDotStar (k : Nat → List Char → Option α) (n : Nat) : List Char → Option α
  | [] => k n []
  | c :: cs =>
    (k n (c :: cs)).orElse fun _ =>
      if c = '\n' then none else lazyDotStar k (n + 1) cs

/-- The characters allowed in the message-codes group. -/
def isCodeChar (c : Char) : Bool :=
  ('A' ≤ c && c ≤ 'Z') || c.isDigit || c = ' '

/-- The named groups of a matched service row. -/
structure SvcGroups where
  serviceDate : List Char
  service : List Char
  providerBilled : List Char
  dmbaPaid : List Char
  yourResp : List Char
  messageCodes : List Char
deriving DecidableEq

/-- Full anchored match of SERVICE_ROW_RE: a date, whitespace, a lazy
description, then three currency groups separated by whitespace, and a
trailing one-to-forty character code field running to the end. -/
def matchServiceRow (s : List Char) : Option SvcGroups :=
  match s with
  | a :: b :: '/' :: c :: d :: '/' :: e :: f :: g :: h :: rest =>
    if a.isDigit && b.isDigit && c.isDigit && d.isDigit &&
       e.isDigit && f.isDigit && g.isDigit && h.isDigit then
      let sdate := [a, b, '/', c, d, '/', e, f, g, h]
      plusGreedy isPySpace rest fun r1 =>
      lazyDotStar (fun n r2 =>
        plusGreedy isPySpace r2 fun r3 =>
        currencyCPS r3 fun r4 =>
        plusGreedy isPySpace r4 fun r5 =>
        currencyCPS r5 fun r6 =>
        plusGreedy isPySpace r6 fun r7 =>
        currencyCPS r7 fun r8 =>
        plusGreedy isPySpace r8 fun r9 =>
        if !r9.isEmpty && r9.length ≤ 40 && r9.all isCodeChar then
          some ⟨sdate, r1.take n,
                r3.take (r3.length - r4.length),
                r5.take (r5.length - r6.length),
                r7.take (r7.length - r8.length), r9⟩
        else none) 0 r1
    else none
  | _ => none

/-- DATE_START_RE: a two-two-four digit date at the start of the line,
closed by a word boundary. -/
def dateStartMatch : List Char → Bool
  | a :: b :: '/' :: c :: d :: '/' :: e :: f :: g :: h :: rest =>
    a.isDigit && b.isDigit && c.isDigit && d.isDigit &&
    e.isDigit && f.isDigit && g.isDigit && h.isDigit &&
    (match rest with
     | [] => true
     | x :: _ => !isWordChar x)
  | _ => false

/-! ### The row assembler -/

/-- try_finalize: once the buffer holds at least three currency-shaped
tokens, normalize its whitespace and test the canonical row shape;
return the normalized single-line row on success. -/
def try_finalize (buffer : List Char) : Option (List Char) :=
  if !buffer.isEmpty && 3 ≤ currencyFindallCount buffer then
    let oneLine := pyStrip (collapseWsAll buffer)
    if (matchServiceRow oneLine).isSome then some oneLine else none
  else none

/-- One line of the assembler's state machine: returns the completed row,
if any, and the new pending buffer. -/
def stepLine (buf : Option (List Char)) (raw : List Char) :
    Option (List Char) × Option (List Char) :=
  let line := pyStrip raw
  if line.isEmpty then (none, buf)
  else
    match buf with
    | none =>
      if dateStartMatch line then
        match try_finalize line with
        | some r => (some r, none)
        | none => (none, some line)
      else (none, none)
    | some b =>
      let b2 := b ++ ' ' :: line
      match try_finalize b2 with
      | some r => (some r, none)
      | none => (none, some b2)

/-- assemble_rows_from_lines: fold the state machine over the lines,
starting from the pending buffer carried in, and return the completed
rows together with the buffer left pending for the next page. -/
def assemble_rows_from_lines :
    List (List Char) → Option (List Char) → List (List Char) × Option (List Char)
  | [], buf => ([], buf)
  | l :: ls, buf =>
    match stepLine buf l with
    | (some r, b') =>
      let (rs, bf) := assemble_rows_from_lines ls b'
      (r :: rs, bf)
    | (none, b') => assemble_rows_from_lines ls b'

/-! ### Header extraction -/

/-- Match a literal character sequence and return the remainder. -/
def litMatch (lit : List Char) (s : List Char) : Option (List Char) :=
  if s.take lit.length = lit then some (s.drop lit.length) else none

/-- Match a literal case-insensitively and return the remainder. -/
def litMatchCI (lit : List Char) (s : List Char) : Option (List Char) :=
  if (s.take lit.length).map Char.toLower = lit then some (s.drop lit.length) else none

/-- A word boundary holds after the position when the next character is
absent or is not a word character. -/
def noWordAhead : List Char → Bool
  | [] => true
  | c :: _ => !isWordChar c

/-- Leftmost search: try the matcher at every position from the left,
tracking whether the previous character was a word character so the
matcher can test a word boundary at its start. -/
def scanSearch (tryAt : Bool → List Char → Option β) : Bool → List Char → Option β
  | prevWord, s =>
    match tryAt prevWord s with
    | some r => some r
    | none =>
      match s with
      | [] => none
      | c :: cs => scanSearch tryAt (isWordChar c) cs

/-- Lazy one-or-more of any character (dot-all), counting the consumed
characters: the captured groups of the header patterns compiled with
re.S. -/
def lazyAnyStar (k : Nat → List Char → Option α) (n : Nat) : List Char → Option α
  | [] => k n []
  | c :: cs => (k n (c :: cs)).orElse fun _ => lazyAnyStar k (n + 1) cs

/-- One-or-more version of the lazy dot-all star. -/
def lazyAnyPlus (s : List Char) (k : Nat → List Char → Option α) : Option α :=
  match s with
  | [] => none
  | _ :: cs => lazyAnyStar k 1 cs

/-- One-or-more lazy repetition of any character except the line feed
(a dot group compiled without re.S). -/
def lazyDotPlus (s : List Char) (k : Nat → List Char → Option α) : Option α :=
  match s with
  | [] => none
  | c :: cs => if c = '\n' then none else lazyDotStar k 1 cs

/-- The Claim pattern at one position: a word boundary, the label, then
optional whitespace, an optional colon, optional whitespace, and the
captured identifier: the letter T followed by at least seven digits
(taken greedily). -/
def claimAt (prevWord : Bool) (s : List Char) : Option (List Char) :=
  if prevWord then none
  else
    match litMatch ['C', 'l', 'a', 'i', 'm'] s with
    | none => none
    | some rest =>
      let r1 := rest.dropWhile isPySpace
      let r2 := match r1 with
                | ':' :: t => t.dropWhile isPySpace
                | _ => r1
      match r2 with
      | 'T' :: t =>
        let ds := t.takeWhile Char.isDigit
        if 7 ≤ ds.length then some ('T' :: ds) else none
      | _ => none

/-- The Patient pattern at one position: the label, whitespace, a lazy
dot-all capture, whitespace, then the words Health Plan closed by a word
boundary. -/
def patientAt (prevWord : Bool) (s : List Char) : Option (List Char) :=
  if prevWord then none
  else
    match litMatch ['P', 'a', 't', 'i', 'e', 'n', 't'] s with
    | none => none
    | some rest =>
      plusGreedy isPySpace rest fun r1 =>
      lazyAnyPlus r1 fun n r2 =>
      plusGreedy isPySpace r2 fun r3 =>
      (litMatch ['H', 'e', 'a', 'l', 't', 'h'] r3).bind fun r4 =>
      starGreedy isPySpace r4 fun r5 =>
      (litMatch ['P', 'l', 'a', 'n'] r5).bind fun r6 =>
      if noWordAhead r6 then some (r1.take n) else none

/-- The Health Plan pattern at one position: the two words, whitespace,
a lazy dot-all capture, whitespace, then either the word Participant or
the words Date Entered, closed by a word boundary. -/
def healthPlanAt (prevWord : Bool) (s : List Char) : Option (List Char) :=
  if prevWord then none
  else
    match litMatch ['H', 'e', 'a', 'l', 't', 'h'] s with
    | none => none
    | some rest =>
      starGreedy isPySpace rest fun r0 =>
      (litMatch ['P', 'l', 'a', 'n'] r0).bind fun rest2 =>
      plusGreedy isPySpace rest2 fun r1 =>
      lazyAnyPlus r1 fun n r2 =>
      plusGreedy isPySpace r2 fun r3 =>
      ((litMatch ['P', 'a', 'r', 't', 'i', 'c', 'i', 'p', 'a', 'n', 't'] r3).bind fun r4 =>
        if noWordAhead r4 then some (r1.take n) else none).orElse fun _ =>
      (litMatch ['D', 'a', 't', 'e'] r3).bind fun r4 =>
      starGreedy isPySpace r4 fun r5 =>
      (litMatch ['E', 'n', 't', 'e', 'r', 'e', 'd'] r5).bind fun r6 =>
      if noWordAhead r6 then some (r1.take n) else none

/-- The Participant pattern at one position: the label, whitespace, a
lazy dot-all capture, whitespace, then the words Date Entered closed by
a word boundary. -/
def participantAt (prevWord : Bool) (s : List Char) : Option (List Char) :=
  if prevWord then none
  else
    match litMatch ['P', 'a', 'r', 't', 'i', 'c', 'i', 'p', 'a', 'n', 't'] s with
    | none => none
    | some rest =>
      plusGreedy isPySpace rest fun r1 =>
      lazyAnyPlus r1 fun n r2 =>
      plusGreedy isPySpace r2 fun r3 =>
      (litMatch ['D', 'a', 't', 'e'] r3).bind fun r4 =>
      starGreedy isPySpace r4 fun r5 =>
      (litMatch ['E', 'n', 't', 'e', 'r', 'e', 'd'] r5).bind fun r6 =>
      if noWordAhead r6 then some (r1.take n) else none

/-- The Participant Id pattern at one position: the label, optional
whitespace, the word Id, whitespace, then captured digits closed by a
word boundary. -/
def participantIdAt (prevWord : Bool) (s : List Char) : Option (List Char) :=
  if prevWord then none
  else
    match litMatch ['P', 'a', 'r', 't', 'i', 'c', 'i', 'p', 'a', 'n', 't'] s with
    | none => none
    | some rest =>
      starGreedy isPySpace rest fun r0 =>
      (litMatch ['I', 'd'] r0).bind fun r1 =>
      plusGreedy isPySpace r1 fun r2 =>
      let ds := r2.takeWhile Char.isDigit
      if !ds.isEmpty && noWordAhead (r2.drop ds.length) then some ds else none

/-- A ten-character date capture closed by a word boundary. -/
def dateCapture (r : List Char) : Option (List Char) :=
  match r with
  | a :: b :: '/' :: c :: d :: '/' :: e :: f :: g :: h :: rest =>
    if a.isDigit && b.isDigit && c.isDigit && d.isDigit &&
       e.isDigit && f.isDigit && g.isDigit && h.isDigit && noWordAhead rest then
      some [a, b, '/', c, d, '/', e, f, g, h]
    else none
  | _ => none

/-- The Date Entered pattern at one position. -/
def dateEnteredAt (prevWord : Bool) (s : List Char) : Option (List Char) :=
  if prevWord then none
  else
    match litMatch ['D', 'a', 't', 'e'] s with
    | none => none
    | some rest =>
      starGreedy isPySpace rest fun r0 =>
      (litMatch ['E', 'n', 't', 'e', 'r', 'e', 'd'] r0).bind fun r1 =>
      plusGreedy isPySpace r1 fun r2 =>
      dateCapture r2

/-- The Date Paid pattern at one position. -/
def datePaidAt (prevWord : Bool) (s : List Char) : Option (List Char) :=
  if prevWord then none
  else
    match litMatch ['D', 'a', 't', 'e'] s with
    | none => none
    | some rest =>
      starGreedy isPySpace rest fun r0 =>
      (litMatch ['P', 'a', 'i', 'd'] r0).bind fun r1 =>
      plusGreedy isPySpace r1 fun r2 =>
      dateCapture r2

/-- The Provider pattern at one position: the label, whitespace, then a
lazy capture of characters other than the line feed, ending at a line
feed or at the end of the text (the end also matches just before one
final line feed). -/
def providerAt (prevWord : Bool) (s : List Char) : Option (List Char) :=
  if prevWord then none
  else
    match litMatch ['P', 'r', 'o', 'v', 'i', 'd', 'e', 'r'] s with
    | none => none
    | some rest =>
      plusGreedy isPySpace rest fun r1 =>
      lazyDotPlus r1 fun n r2 =>
      if r2.head? = some '\n' || r2.isEmpty then some (r1.take n) else none

/-- The eight header fields, one Option per labelled pattern. -/
structure HeaderFields where
  claim : Option (List Char)
  patient : Option (List Char)
  healthPlan : Option (List Char)
  participant : Option (List Char)
  participantId : Option (List Char)
  dateEntered : Option (List Char)
  datePaid : Option (List Char)
  provider : Option (List Char)
deriving DecidableEq

/-- extract_header_fields: search every pattern independently over the
page text and normalize each captured value to single spaces. -/
def extract_header_fields (t : List Char) : HeaderFields where
  claim := (scanSearch claimAt false t).map squashWs
  patient := (scanSearch patientAt false t).map squashWs
  healthPlan := (scanSearch healthPlanAt false t).map squashWs
  participant := (scanSearch participantAt false t).map squashWs
  participantId := (scanSearch participantIdAt false t).map squashWs
  dateEntered := (scanSearch dateEnteredAt false t).map squashWs
  datePaid := (scanSearch datePaidAt false t).map squashWs
  provider := (scanSearch providerAt false t).map squashWs

/-! ### Legend-page classification -/

/-- LEGEND_HDR_RE: a case-insensitive search for the word Code, then
whitespace, then Description, with word boundaries at both ends. -/
def legendHdrAt (prevWord : Bool) (s : List Char) : Option Unit :=
  if prevWord then none
  else
    match litMatchCI ['c', 'o', 'd', 'e'] s with
    | none => none
    | some rest =>
      plusGreedy isPySpace rest fun r1 =>
      (litMatchCI ['d', 'e', 's', 'c', 'r', 'i', 'p', 't', 'i', 'o', 'n'] r1).bind fun r2 =>
      if noWordAhead r2 then some () else none

/-- The characters of a short legend code token. -/
def isLegendClass (c : Char) : Bool := ('A' ≤ c && c ≤ 'Z') || c.isDigit

/-- One multi-line legend-line match at a line start: one to four code
characters taken greedily, a word boundary, whitespace, then at least
one further character up to the end of the line; returns the remainder
after the match. -/
def legendLinePart (n : Nat) (s : List Char) : Option (List Char) :=
  if n ≤ s.length && (s.take n).all isLegendClass && noWordAhead (s.drop n) then
    plusGreedy isPySpace (s.drop n) fun r =>
      match r with
      | c :: cs =>
        if c = '\n' then none
        else some (cs.drop (cs.takeWhile (fun x => x ≠ '\n')).length)
      | [] => none
  else none

/-- Try the legend-line pattern at a position, preferring the longest
code prefix. -/
def legendTryAt (s : List Char) : Option (List Char) :=
  (legendLinePart 4 s).orElse fun _ =>
  (legendLinePart 3 s).orElse fun _ =>
  (legendLinePart 2 s).orElse fun _ =>
  legendLinePart 1 s

/-- Count the non-overlapping multi-line legend-line matches, scanning
left to right; a position is a line start at the very beginning and
right after each line feed.  Every match consumes at least two
characters, so the length of the text is enough fuel. -/
def legendScanAux : Nat → Bool → List Char → Nat
  | 0, _, _ => 0
  | fuel + 1, atStart, s =>
    match (if atStart then legendTryAt s else none) with
    | some rest => 1 + legendScanAux fuel false rest
    | none =>
      match s with
      | [] => 0
      | c :: cs => legendScanAux fuel (c = '\n') cs

/-- Number of matches of LEGEND_LINE_RE in the page text. -/
def legendLineCount (s : List Char) : Nat :=
  legendScanAux (s.length + 1) true s

/-- is_legend_only_page: no assembled service rows, the legend heading
occurs, and at least two legend-shaped lines occur. -/
def is_legend_only_page (pageText : List Char) (numServiceRows : Nat) : Bool :=
  if 0 < numServiceRows then false
  else
    if (scanSearch legendHdrAt false pageText).isSome then
      decide (2 ≤ legendLineCount pageText)
    else false

/-! ### Service-row parsing and the page pipeline -/

/-- parse_service_row: re-match the finalized row against the canonical
shape and produce the six typed fields; none models the assertion
failing on a non-matching row. -/
def parse_service_row (row : List Char) : Option SvcGroups :=
  (matchServiceRow row).map fun g =>
    ⟨g.serviceDate, pyStrip g.service, _money_to_str g.providerBilled,
     _money_to_str g.dmbaPaid, _money_to_str g.yourResp, pyStrip g.messageCodes⟩

/-- One output record: the eight context fields (empty when unset)
followed by the six service-row fields. -/
structure StampedRow where
  claim : List Char
  patient : List Char
  healthPlan : List Char
  participant : List Char
  participantId : List Char
  dateEntered : List Char
  datePaid : List Char
  provider : List Char
  serviceDate : List Char
  servicesProvided : List Char
  providerBilled : List Char
  dmbaPaid : List Char
  yourResp : List Char
  messageCodes : List Char
deriving DecidableEq

/-- Merge the current context with one parsed row. -/
def stampRow (c : HeaderFields) (f : SvcGroups) : StampedRow :=
  ⟨c.claim.getD [], c.patient.getD [], c.healthPlan.getD [],
   c.participant.getD [], c.participantId.getD [], c.dateEntered.getD [],
   c.datePaid.getD [], c.provider.getD [],
   f.serviceDate, f.service, f.providerBilled, f.dmbaPaid, f.yourResp,
   f.messageCodes⟩

/-- The emission loop over the assembled row texts of a page: parse each
and stamp it with the context; a parse failure aborts, as the assertion
would. -/
def stampAll (c : HeaderFields) : List (List Char) → Option (List StampedRow)
  | [] => some []
  | t :: ts =>
    match parse_service_row t with
    | none => none
    | some f =>
      match stampAll c ts with
      | none => none
      | some rs => some (stampRow c f :: rs)

/-- Total form of the emission loop, defined for the rows the assembler
actually produces (which always parse). -/
def stampAllT (c : HeaderFields) (ts : List (List Char)) : List StampedRow :=
  ts.filterMap fun t => (parse_service_row t).map (stampRow c)

/-- The two values threaded through the page loop, plus the output. -/
structure PipeState where
  ctx : Option HeaderFields
  pending : Option (List Char)
  out : List StampedRow
deriving DecidableEq

/-- The text of a page as the pipeline sees it: normalized lines joined
by line feeds. -/
def pageText (raw : List Char) : List Char :=
  List.intercalate ['\n'] (normalize_page_text raw)

/-- The header extracted from a page's text. -/
def pageHeader (raw : List Char) : HeaderFields :=
  extract_header_fields (pageText raw)

/-- The rows assembled on a page given the carried pending buffer. -/
def pageRows (pending : Option (List Char)) (raw : List Char) : List (List Char) :=
  (assemble_rows_from_lines (normalize_page_text raw) pending).1

/-- The pending buffer left after a page. -/
def pagePending (pending : Option (List Char)) (raw : List Char) : Option (List Char) :=
  (assemble_rows_from_lines (normalize_page_text raw) pending).2

/-- Whether a page is classified legend-only at this point of the run. -/
def pageIsLegend (pending : Option (List Char)) (raw : List Char) : Bool :=
  is_legend_only_page (pageText raw) (pageRows pending raw).length

/-- One iteration of the page loop of parse_pdf_to_rows: extract and
assemble, skip a legend-only page, update the context, and stamp and
emit the page's rows; none models an uncaught exception. -/
def processPage (s : PipeState) (raw : List Char) : Option PipeState :=
  if pageIsLegend s.pending raw then
    some { s with pending := pagePending s.pending raw }
  else
    let ctx' := if (pageHeader raw).claim.isSome then some (pageHeader raw) else s.ctx
    match ctx' with
    | none => some ⟨none, pagePending s.pending raw, s.out⟩
    | some c =>
      match stampAll c (pageRows s.pending raw) with
      | none => none
      | some rs => some ⟨some c, pagePending s.pending raw, s.out ++ rs⟩

/-- The page loop. -/
def runPages : PipeState → List (List Char) → Option PipeState
  | s, [] => some s
  | s, p :: ps =>
    match processPage s p with
    | none => none
    | some s' => runPages s' ps

/-- The initial state: no context, no pending buffer, no output. -/
def initState : PipeState := ⟨none, none, []⟩

/-- parse_pdf_to_rows over a list of page texts: run the page loop from
the initial state and return the output records. -/
def parse_pdf_to_rows (pages : List (List Char)) : Option (List StampedRow) :=
  (runPages initState pages).map PipeState.out

/-- The context after a page: replaced wholesale by the page's header
when one was found and the page was not skipped, kept otherwise. -/
def pageCtxAfter (s : PipeState) (raw : List Char) : Option HeaderFields :=
  if pageIsLegend s.pending raw then s.ctx
  else if (pageHeader raw).claim.isSome then some (pageHeader raw)
  else s.ctx

/-- The records a page contributes to the output. -/
def pageEmitsT (s : PipeState) (raw : List Char) : List StampedRow :=
  if pageIsLegend s.pending raw then []
  else
    match (if (pageHeader raw).claim.isSome then some (pageHeader raw) else s.ctx) with
    | none => []
    | some c => stampAllT c (pageRows s.pending raw)

/-- Total form of one page-loop iteration. -/
def processPageT (s : PipeState) (raw : List Char) : PipeState :=
  ⟨pageCtxAfter s raw, pagePending s.pending raw, s.out ++ pageEmitsT s raw⟩

/-- Total form of the page loop. -/
def runPagesT : PipeState → List (List Char) → PipeState
  | s, [] => s
  | s, p :: ps => runPagesT (processPageT s p) ps

/-- The in-order concatenation of the pages' emitted records, each page
stamped against the state current when it was processed. -/
def runEmits : PipeState → List (List Char) → List StampedRow
  | _, [] => []
  | s, p :: ps => pageEmitsT s p ++ runEmits (processPageT s p) ps

/-- The pending buffer threaded through a sequence of pages. -/
def pendingThread (pb : Option (List Char)) (pages : List (List Char)) : Option (List Char) :=
  pages.foldl pagePending pb

/-- The eight context fields a record was stamped with. -/
def ctxFieldsOfRow (r : StampedRow) : List (List Char) :=
  [r.claim, r.patient, r.healthPlan, r.participant, r.participantId,
   r.dateEntered, r.datePaid, r.provider]

/-- The eight field values a header stamps onto a record. -/
def stampCtxFields (h : HeaderFields) : List (List Char) :=
  [h.claim.getD [], h.patient.getD [], h.healthPlan.getD [],
   h.participant.getD [], h.participantId.getD [], h.dateEntered.getD [],
   h.datePaid.getD [], h.provider.getD []]

/-- The eight extracted header fields as a list. -/
def headerFieldList (h : HeaderFields) : List (Option (List Char)) :=
  [h.claim, h.patient, h.healthPlan, h.participant, h.participantId,
   h.dateEntered, h.datePaid, h.provider]

/-! ### Concrete inputs used to instantiate the theorems -/

/-- A line opening a service row that is cut off before its amounts. -/
def lineOpenA : List Char := "01/23/2025 OFFICE VISIT".data

/-- The continuation of the cut-off row: amounts and codes. -/
def lineTailB : List Char := "$100.00 $80.00 $20.00 A1".data

/-- The same service row unsplit. -/
def rowVisit : List Char := "01/23/2025 OFFICE VISIT $100.00 $80.00 $20.00 A1".data

/-- First line of a row whose description contains currency-shaped text. -/
def cexL1 : List Char := "01/23/2025 A".data

/-- A line completing one canonical row shape. -/
def cexL2 : List Char := "$1 $2 $3 B".data

/-- A further full row line. -/
def cexL3 : List Char := "01/24/2025 C $4 $5 $6 D".data

/-- A header page with one complete service row. -/
def pgHeaderRow : List Char :=
  "Claim T1234567\n01/01/2025 X $1.00 $2.00 $3.00 AB".data

/-- A pure legend page: heading plus two legend lines, no date lines. -/
def pgLegend : List Char := "Code Description\nA1 FIRST\nB2 SECOND".data

/-- A headerless page with one complete service row. -/
def pgRowOnly : List Char := "01/02/2025 Y $4.00 $5.00 $6.00 CD".data

/-- A header page that ends in the middle of a service row. -/
def pgHeaderOpen : List Char := "Claim T1234567\n01/23/2025 FOO".data

/-- A legend page whose legend lines corrupt an accumulating buffer. -/
def pgLegendX : List Char := "Code Description\nA1 X\nB2 Y".data

/-- A page holding only the tail of a split service row. -/
def pgTail : List Char := "$1.00 $2.00 $3.00 AB".data

/-- A header page for claim T1111111 with one row. -/
def pgClaim1 : List Char :=
  "Claim T1111111\n01/01/2025 X $1.00 $2.00 $3.00 AB".data

/-- A legend-only page that nevertheless carries a Claim label. -/
def pgClaim2Legend : List Char :=
  "Claim T2222222\nCode Description\nA1 x\nB2 y".data

/-- A headerless page with one row, following the legend page. -/
def pgRowAfter : List Char := "01/02/2025 Y $1.00 $2.00 $3.00 CD".data

/-- A plain single-line service row used as a parser witness. -/
def rowPlain : List Char := "01/23/2025 X $1.00 $2.00 $3.00 AB".data

/-- A page consisting of one complete row and no header. -/
def pgOrphan : List Char := "01/02/2025 X $1.00 $2.00 $3.00 AB".data

/-- A page text containing only a claim header label. -/
def pgClaimOnly : List Char :=
  "Claim T1234567 Patient A B Health Plan P Participant Q Date Entered 01/02/2025".data

/-- A currency token with dollar sign and thousands separator. -/
def mny1 : List Char := "$1,234.00".data

/-- A parenthesised currency token. -/
def mny2 : List Char := "(12.50)".data

/-- A bare zero. -/
def mny3 : List Char := "0".data

/-- A non-numeric token behind a dollar sign. -/
def mnyBad : List Char := "$abc".data

/-- The single-line row the three counterexample lines reassemble to. -/
def cexRow : List Char :=
  "01/23/2025 A $1 $2 $3 B 01/24/2025 C $4 $5 $6 D".data

/-- The first row the assembler completes from the counterexample lines. -/
def cexRowA : List Char := "01/23/2025 A $1 $2 $3 B".data

/-- The second row the assembler completes from the counterexample lines. -/
def cexRowB : List Char := "01/24/2025 C $4 $5 $6 D".data

/-- The corrupted description produced when legend lines are appended to
an accumulating buffer. -/
def svcCorrupt : List Char := "FOO Code Description A1 X B2 Y".data

/-- The clean description produced without the legend page. -/
def svcClean : List Char := "FOO".data

/-- The claim identifier extracted from the witness page. -/
def clmVal : List Char := "T1234567".data

/-- A two-line string with no horizontal whitespace at all. -/
def nlAB : List Char := "a\nb".data

/-! ### Shared lemmas about the assembler and the page loop -/

theorem try_finalize_matches {b r : List Char} (h : try_finalize b = some r) :
    (matchServiceRow r).isSome = true := by
  unfold try_finalize at h
  simp only [] at h
  split at h
  · split at h
    · rename_i hm
      cases h
      exact hm
    · exact absurd h (by simp)
  · exact absurd h (by simp)

theorem stepLine_emit {b : Option (List Char)} {l r : List Char} {b' : Option (List Char)}
    (h : stepLine b l = (some r, b')) : (matchServiceRow r).isSome = true := by
  unfold stepLine at h
  simp only [] at h
  split at h
  · exact absurd h (by simp)
  · split at h
    · split at h
      · split at h
        · rename_i hf
          cases h
          exact try_finalize_matches hf
        · exact absurd h (by simp)
      · exact absurd h (by simp)
    · split at h
      · rename_i hf
        cases h
        exact try_finalize_matches hf
      · exact absurd h (by simp)

theorem assemble_mem_matches :
    ∀ (ls : List (List Char)) (b : Option (List Char)) (r : List Char),
      r ∈ (assemble_rows_from_lines ls b).1 → (matchServiceRow r).isSome = true := by
  intro ls
  induction ls with
  | nil => intro b r h; simp [assemble_rows_from_lines] at h
  | cons l ls ih =>
    intro b r h
    rw [assemble_rows_from_lines] at h
    cases hs : stepLine b l with
    | mk o b' =>
      rw [hs] at h
      cases o with
      | none => exact ih b' r h
      | some r0 =>
        simp only [] at h
        rcases List.mem_cons.mp h with h1 | h2
        · subst h1; exact stepLine_emit hs
        · exact ih b' r h2

theorem assemble_append (xs ys : List (List Char)) :
    ∀ b, assemble_rows_from_lines (xs ++ ys) b =
      ((assemble_rows_from_lines xs b).1 ++
         (assemble_rows_from_lines ys (assemble_rows_from_lines xs b).2).1,
       (assemble_rows_from_lines ys (assemble_rows_from_lines xs b).2).2) := by
  induction xs with
  | nil => intro b; simp [assemble_rows_from_lines]
  | cons l ls ih =>
    intro b
    rw [List.cons_append, assemble_rows_from_lines, assemble_rows_from_lines]
    cases hs : stepLine b l with
    | mk o b' =>
      cases o with
      | none => exact ih b'
      | some r0 =>
        dsimp only []
        rw [ih b']
        simp

theorem parse_isSome {r : List Char} (h : (matchServiceRow r).isSome = true) :
    (parse_service_row r).isSome = true := by
  unfold parse_service_row
  cases hm : matchServiceRow r
  · rw [hm] at h; simp at h
  · simp

theorem stampAll_eq (c : HeaderFields) :
    ∀ ts : List (List Char), (∀ t ∈ ts, (matchServiceRow t).isSome = true) →
      stampAll c ts = some (stampAllT c ts) := by
  intro ts
  induction ts with
  | nil => intro _; simp [stampAll, stampAllT]
  | cons t ts ih =>
    intro h
    have hp : (parse_service_row t).isSome = true := parse_isSome (h t (by simp))
    obtain ⟨f, hf⟩ := Option.isSome_iff_exists.mp hp
    rw [stampAll, hf, ih (fun x hx => h x (List.mem_cons_of_mem _ hx))]
    simp [stampAllT, hf]

theorem processPage_eq (s : PipeState) (p : List Char) :
    processPage s p = some (processPageT s p) := by
  unfold processPage processPageT pageCtxAfter pageEmitsT
  by_cases hl : pageIsLegend s.pending p = true
  · simp [hl]
  · have hrows : ∀ t ∈ pageRows s.pending p, (matchServiceRow t).isSome = true := by
      intro t ht
      exact assemble_mem_matches _ _ _ ht
    simp only [hl, if_false, Bool.false_eq_true]
    cases hc : (pageHeader p).claim.isSome with
    | true =>
      simp only [hc, if_true]
      rw [stampAll_eq _ _ hrows]
    | false =>
      simp only [Bool.false_eq_true, if_false]
      cases hctx : s.ctx with
      | none => simp
      | some c =>
        simp only []
        rw [stampAll_eq _ _ hrows]

theorem runPages_eq : ∀ (ps : List (List Char)) (s : PipeState),
    runPages s ps = some (runPagesT s ps) := by
  intro ps
  induction ps with
  | nil => intro s; simp [runPages, runPagesT]
  | cons p ps ih =>
    intro s
    rw [runPages, processPage_eq, runPagesT]
    exact ih (processPageT s p)

theorem runPagesT_out : ∀ (ps : List (List Char)) (s : PipeState),
    (runPagesT s ps).out = s.out ++ runEmits s ps := by
  intro ps
  induction ps with
  | nil => intro s; simp [runPagesT, runEmits]
  | cons p ps ih =>
    intro s
    rw [runPagesT, runEmits, ih (processPageT s p)]
    show (processPageT s p).out ++ _ = _
    rw [processPageT]
    simp

theorem runPagesT_append : ∀ (xs ys : List (List Char)) (s : PipeState),
    runPagesT s (xs ++ ys) = runPagesT (runPagesT s xs) ys := by
  intro xs
  induction xs with
  | nil => intro ys s; simp [runPagesT]
  | cons p xs ih =>
    intro ys s
    rw [List.cons_append, runPagesT, runPagesT]
    exact ih ys (processPageT s p)

theorem parse_pdf_eq (pages : List (List Char)) :
    parse_pdf_to_rows pages = some (runEmits initState pages) := by
  unfold parse_pdf_to_rows
  rw [runPages_eq]
  simp [runPagesT_out, initState]

/-! ### Claim theorems -/

/-- C8: the currency normalizer maps the dollar-and-comma token to its
plain form, the parenthesised token to a negated one, and a bare zero to
a two-decimal zero. -/
theorem currency_normalization_examples :
    _money_to_str mny1 = ['1', '2', '3', '4', '.', '0', '0'] ∧
    _money_to_str mny2 = ['-', '1', '2', '.', '5', '0'] ∧
    _money_to_str mny3 = ['0', '.', '0', '0'] := by
  decide

/-- C6 counterexample: the non-numeric token with a dollar sign is not
returned verbatim: the stripped form comes back instead. -/
theorem money_fallback_not_verbatim :
    _money_to_str mnyBad = ['a', 'b', 'c'] ∧ mnyBad ≠ ['a', 'b', 'c'] := by
  decide

/-- C6 (amended): when the stripped content of the token is not a valid
decimal numeric string, the currency normalizer returns the stripped
token unchanged (and, being a total function, never fails). -/
theorem money_fallback_stripped (v : List Char)
    (h : parsePyDec (moneyStrip v) = none) :
    _money_to_str v = moneyStrip v := by
  unfold _money_to_str
  simp only []
  rw [h]

/-- Witness for the C6 theorem at the concrete non-numeric token. -/
theorem money_fallback_stripped_witness :
    parsePyDec (moneyStrip mnyBad) = none ∧
    _money_to_str mnyBad = moneyStrip mnyBad :=
  ⟨by decide, money_fallback_stripped mnyBad (by decide)⟩

/-- C1 (amended): when processing the unsplit lines in one call yields
exactly one completed row, and page A alone yields zero completed rows
with its buffer still accumulating (so that buffer would be discarded if
the document ended there), then processing page B with the pending
buffer returned by A yields exactly that one row and the same final
buffer. -/
theorem cross_page_reconstruction (A B : List (List Char)) (R b : List Char)
    (p : Option (List Char))
    (hfull : assemble_rows_from_lines (A ++ B) none = ([R], p))
    (hA : assemble_rows_from_lines A none = ([], some b)) :
    assemble_rows_from_lines B (some b) = ([R], p) := by
  have h2 := assemble_append A B none
  rw [hfull, hA] at h2
  simp only [List.nil_append] at h2
  calc assemble_rows_from_lines B (some b)
      = ((assemble_rows_from_lines B (some b)).1,
         (assemble_rows_from_lines B (some b)).2) := rfl
    _ = ([R], p) := h2.symm

/-- Witness for the C1 theorem: a row cut between its description and
its amounts is reassembled across the page break. -/
theorem cross_page_reconstruction_witness :
    assemble_rows_from_lines ([lineOpenA] ++ [lineTailB]) none = ([rowVisit], none) ∧
    assemble_rows_from_lines [lineOpenA] none = ([], some lineOpenA) ∧
    assemble_rows_from_lines [lineTailB] (some lineOpenA) = ([rowVisit], none) :=
  ⟨by decide, by decide,
   cross_page_reconstruction [lineOpenA] [lineTailB] rowVisit lineOpenA none
     (by decide) (by decide)⟩

/-- C1 counterexample: three lines that reassemble to a string matching
the canonical single-row shape, split so that page A ends mid-row, yet
the assembler completes two rows, not one. -/
theorem cross_page_reconstruction_cex :
    pyStrip (collapseWsAll (List.intercalate [' '] [cexL1, cexL2, cexL3])) = cexRow ∧
    (matchServiceRow cexRow).isSome = true ∧
    assemble_rows_from_lines [cexL1] none = ([], some cexL1) ∧
    assemble_rows_from_lines [cexL2, cexL3] (some cexL1) = ([cexRowA, cexRowB], none) ∧
    assemble_rows_from_lines ([cexL1] ++ [cexL2, cexL3]) none =
      ([cexRowA, cexRowB], none) := by
  refine ⟨by decide, by decide, by decide, by decide, ?_⟩
  decide

/-- C3: every row string the assembler returns matches the canonical
shape, so parse_service_row succeeds on it, and the whole pipeline
never signals an error on any input. -/
theorem no_abnormal_termination :
    (∀ (lines : List (List Char)) (pending : Option (List Char)) (r : List Char),
        r ∈ (assemble_rows_from_lines lines pending).1 →
          (matchServiceRow r).isSome = true ∧ (parse_service_row r).isSome = true) ∧
    ∀ pages : List (List Char), (parse_pdf_to_rows pages).isSome = true := by
  constructor
  · intro lines pending r h
    have hm := assemble_mem_matches lines pending r h
    exact ⟨hm, parse_isSome hm⟩
  · intro pages
    rw [parse_pdf_eq]
    rfl

/-- Witness for the C3 theorem at a concrete assembled row. -/
theorem no_abnormal_termination_witness :
    rowPlain ∈ (assemble_rows_from_lines [rowPlain] none).1 ∧
    ((matchServiceRow rowPlain).isSome = true ∧
      (parse_service_row rowPlain).isSome = true) :=
  ⟨by decide, no_abnormal_termination.1 [rowPlain] none rowPlain (by decide)⟩

/-- C5: the pipeline output is exactly the in-order concatenation, over
pages in document order, of the records each page emits under the state
current when it is processed; each page appends its records after the
previous output. -/
theorem emission_order_invariant :
    (∀ pages : List (List Char),
        parse_pdf_to_rows pages = some (runEmits initState pages)) ∧
    ∀ (s : PipeState) (p : List Char),
        (processPageT s p).out = s.out ++ pageEmitsT s p := by
  exact ⟨fun pages => parse_pdf_eq pages, fun s p => rfl⟩

/-- A page without a Claim field leaves an absent context absent and
emits nothing. -/
theorem ctxNone_step (s : PipeState) (p : List Char)
    (h : (pageHeader p).claim.isSome = false) (hc : s.ctx = none) :
    processPageT s p = ⟨none, pagePending s.pending p, s.out⟩ := by
  unfold processPageT pageCtxAfter pageEmitsT
  by_cases hl : pageIsLegend s.pending p = true
  · simp [hl, hc]
  · simp [hl, h, hc]

/-- With no context established, a run over claimless pages only
threads the pending buffer: nothing is emitted and no context appears. -/
theorem runPagesT_noclaim :
    ∀ (pages : List (List Char)) (pb : Option (List Char)) (out : List StampedRow),
      (∀ p ∈ pages, (pageHeader p).claim.isSome = false) →
      runPagesT ⟨none, pb, out⟩ pages = ⟨none, pendingThread pb pages, out⟩ := by
  intro pages
  induction pages with
  | nil => intro pb out _; simp [runPagesT, pendingThread]
  | cons p ps ih =>
    intro pb out h
    rw [runPagesT, ctxNone_step ⟨none, pb, out⟩ p (h p (by simp)) rfl]
    rw [ih (pagePending pb p) out (fun q hq => h q (List.mem_cons_of_mem _ hq))]
    simp [pendingThread, List.foldl]

/-- A page without a Claim field never changes the context. -/
theorem noclaim_step_ctx (s : PipeState) (p : List Char)
    (h : (pageHeader p).claim.isSome = false) :
    (processPageT s p).ctx = s.ctx := by
  unfold processPageT pageCtxAfter
  by_cases hl : pageIsLegend s.pending p = true
  · simp [hl]
  · simp [hl, h]

/-- Every record stamped from a context carries exactly its eight
field values. -/
theorem stampAllT_ctx (c : HeaderFields) (ts : List (List Char)) :
    ∀ r ∈ stampAllT c ts, ctxFieldsOfRow r = stampCtxFields c := by
  intro r hr
  unfold stampAllT at hr
  rw [List.mem_filterMap] at hr
  obtain ⟨t, _, ht⟩ := hr
  cases hp : parse_service_row t with
  | none => rw [hp] at ht; simp at ht
  | some f =>
    rw [hp] at ht
    rw [Option.map_some'] at ht
    cases ht
    rfl

/-- On a claimless page, all emitted records carry the carried
context. -/
theorem noclaim_step_emits (s : PipeState) (p : List Char) (c : HeaderFields)
    (h : (pageHeader p).claim.isSome = false) (hc : s.ctx = some c) :
    ∀ r ∈ pageEmitsT s p, ctxFieldsOfRow r = stampCtxFields c := by
  intro r hr
  unfold pageEmitsT at hr
  by_cases hl : pageIsLegend s.pending p = true
  · simp [hl] at hr
  · simp only [hl, if_false, Bool.false_eq_true, h, hc] at hr
    exact stampAllT_ctx c _ r hr

/-- Over claimless pages the context is preserved and every emitted
record carries it. -/
theorem carry_forward_aux :
    ∀ (mids : List (List Char)) (s : PipeState) (c : HeaderFields),
      s.ctx = some c → (∀ M ∈ mids, (pageHeader M).claim.isSome = false) →
      (runPagesT s mids).ctx = some c ∧
        ∀ r ∈ runEmits s mids, ctxFieldsOfRow r = stampCtxFields c := by
  intro mids
  induction mids with
  | nil => intro s c hc _; exact ⟨hc, by simp [runEmits]⟩
  | cons p ps ih =>
    intro s c hc h
    have hstep : (processPageT s p).ctx = some c := by
      rw [noclaim_step_ctx s p (h p (by simp))]; exact hc
    obtain ⟨ih1, ih2⟩ :=
      ih (processPageT s p) c hstep (fun q hq => h q (List.mem_cons_of_mem _ hq))
    refine ⟨by rw [runPagesT]; exact ih1, ?_⟩
    intro r hr
    rw [runEmits] at hr
    rcases List.mem_append.mp hr with h1 | h2
    · exact noclaim_step_emits s p c (h p (by simp)) hc r h1
    · exact ih2 r h2

/-- A non-legend page with a Claim field replaces the context by that
page's extracted header. -/
theorem claim_step_ctx (s : PipeState) (p : List Char)
    (h : (pageHeader p).claim.isSome = true)
    (hl : pageIsLegend s.pending p = false) :
    (processPageT s p).ctx = some (pageHeader p) := by
  unfold processPageT pageCtxAfter
  simp [hl, h]

/-- A non-legend page with a Claim field stamps its rows with its own
header. -/
theorem claim_step_emits (s : PipeState) (p : List Char)
    (h : (pageHeader p).claim.isSome = true)
    (hl : pageIsLegend s.pending p = false) :
    ∀ r ∈ pageEmitsT s p, ctxFieldsOfRow r = stampCtxFields (pageHeader p) := by
  intro r hr
  unfold pageEmitsT at hr
  simp only [hl, if_false, Bool.false_eq_true, h, if_true] at hr
  exact stampAllT_ctx _ _ r hr

/-- A legend-only page that leaves the pending buffer unchanged leaves
the whole pipeline state unchanged. -/
theorem legend_step (s : PipeState) (p : List Char)
    (hl : pageIsLegend s.pending p = true)
    (hp : pagePending s.pending p = s.pending) :
    processPageT s p = s := by
  unfold processPageT pageCtxAfter pageEmitsT
  simp [hl, hp]

/-- C7: rows assembled before any page has yielded a Claim field
produce no output records: the run leaves the output untouched and
establishes no context, carrying only the in-progress buffer; a whole
document of claimless pages yields the empty output. -/
theorem orphan_rows_dropped (pages : List (List Char)) (pb : Option (List Char))
    (out : List StampedRow)
    (h : ∀ p ∈ pages, (pageHeader p).claim.isSome = false) :
    runPages ⟨none, pb, out⟩ pages = some ⟨none, pendingThread pb pages, out⟩ ∧
    parse_pdf_to_rows pages = some [] := by
  constructor
  · rw [runPages_eq, runPagesT_noclaim pages pb out h]
  · unfold parse_pdf_to_rows initState
    rw [runPages_eq, runPagesT_noclaim pages none [] h]
    rfl

/-- Witness for the C7 theorem: one claimless page holding one
valid-shaped row yields no records. -/
theorem orphan_rows_dropped_witness :
    (∀ p ∈ [pgOrphan], (pageHeader p).claim.isSome = false) ∧
    (pageRows none pgOrphan).length = 1 ∧
    (runPages ⟨none, none, []⟩ [pgOrphan] =
        some ⟨none, pendingThread none [pgOrphan], []⟩ ∧
      parse_pdf_to_rows [pgOrphan] = some []) :=
  ⟨by decide, by decide, orphan_rows_dropped [pgOrphan] none [] (by decide)⟩

/-- C4 (amended): a non-legend-only page whose text yields a Claim
field replaces the context wholesale with that page's extracted header,
and every record emitted from it and from the following claimless pages
is stamped with exactly that one header's eight field values. -/
theorem context_carry_forward (s0 : PipeState) (H : List Char)
    (mids : List (List Char))
    (hH : (pageHeader H).claim.isSome = true)
    (hHleg : pageIsLegend s0.pending H = false)
    (hM : ∀ M ∈ mids, (pageHeader M).claim.isSome = false) :
    (processPageT s0 H).ctx = some (pageHeader H) ∧
    (runPagesT s0 (H :: mids)).ctx = some (pageHeader H) ∧
    ∀ r ∈ runEmits s0 (H :: mids),
      ctxFieldsOfRow r = stampCtxFields (pageHeader H) := by
  have hstep := claim_step_ctx s0 H hH hHleg
  obtain ⟨h1, h2⟩ := carry_forward_aux mids (processPageT s0 H) (pageHeader H) hstep hM
  refine ⟨hstep, by rw [runPagesT]; exact h1, ?_⟩
  intro r hr
  rw [runEmits] at hr
  rcases List.mem_append.mp hr with ha | hb
  · exact claim_step_emits s0 H hH hHleg r ha
  · exact h2 r hb

/-- Witness for the C4 theorem: a header page followed by a headerless
row page. -/
theorem context_carry_forward_witness :
    ((pageHeader pgHeaderRow).claim.isSome = true ∧
      pageIsLegend initState.pending pgHeaderRow = false ∧
      ∀ M ∈ [pgRowOnly], (pageHeader M).claim.isSome = false) ∧
    ((processPageT initState pgHeaderRow).ctx = some (pageHeader pgHeaderRow) ∧
      (runPagesT initState (pgHeaderRow :: [pgRowOnly])).ctx =
        some (pageHeader pgHeaderRow) ∧
      ∀ r ∈ runEmits initState (pgHeaderRow :: [pgRowOnly]),
        ctxFieldsOfRow r = stampCtxFields (pageHeader pgHeaderRow)) :=
  ⟨⟨by decide, by decide, by decide⟩,
   context_carry_forward initState pgHeaderRow [pgRowOnly]
     (by decide) (by decide) (by decide)⟩

/-- C4 counterexample: a legend-only page yielding Claim T2222222 is
skipped, so the row on the following claimless page stays stamped with
the older T1111111 header, against the claim's unqualified wording. -/
theorem context_carry_forward_cex :
    (pageHeader pgClaim2Legend).claim =
      some ['T', '2', '2', '2', '2', '2', '2', '2'] ∧
    (pageHeader pgRowAfter).claim.isSome = false ∧
    (parse_pdf_to_rows [pgClaim1, pgClaim2Legend, pgRowAfter]).map
        (List.map StampedRow.claim) =
      some [['T', '1', '1', '1', '1', '1', '1', '1'],
            ['T', '1', '1', '1', '1', '1', '1', '1']] := by
  refine ⟨by decide, by decide, ?_⟩
  decide

/-- C2 (amended): a page classified legend-only is skipped with no
effect on the header context; provided its lines also leave the pending
buffer unchanged, it is fully transparent: inserting it between two
data pages leaves the emitted records identical. -/
theorem legend_page_transparent (pre post : List (List Char)) (P : List Char)
    (hleg : pageIsLegend (runPagesT initState pre).pending P = true)
    (hpend : pagePending (runPagesT initState pre).pending P =
      (runPagesT initState pre).pending) :
    parse_pdf_to_rows (pre ++ P :: post) = parse_pdf_to_rows (pre ++ post) ∧
    processPageT (runPagesT initState pre) P = runPagesT initState pre := by
  have hstep := legend_step (runPagesT initState pre) P hleg hpend
  constructor
  · unfold parse_pdf_to_rows
    rw [runPages_eq, runPages_eq]
    have : runPagesT initState (pre ++ P :: post) =
        runPagesT initState (pre ++ post) := by
      rw [runPagesT_append, runPagesT_append]
      show runPagesT (runPagesT (runPagesT initState pre) [P]) post = _
      rw [runPagesT, runPagesT, hstep]
    rw [this]
  · exact hstep

/-- Witness for the C2 theorem: a pure legend page between a header
page and a row page changes nothing. -/
theorem legend_page_transparent_witness :
    (pageIsLegend (runPagesT initState [pgHeaderRow]).pending pgLegend = true ∧
      pagePending (runPagesT initState [pgHeaderRow]).pending pgLegend =
        (runPagesT initState [pgHeaderRow]).pending) ∧
    (parse_pdf_to_rows ([pgHeaderRow] ++ pgLegend :: [pgRowOnly]) =
        parse_pdf_to_rows ([pgHeaderRow] ++ [pgRowOnly]) ∧
      processPageT (runPagesT initState [pgHeaderRow]) pgLegend =
        runPagesT initState [pgHeaderRow]) :=
  ⟨⟨by decide, by decide⟩,
   legend_page_transparent [pgHeaderRow] [pgRowOnly] pgLegend
     (by decide) (by decide)⟩

/-- C2 counterexample: a legend-only page reached while a row is
accumulating has its lines appended to the pending buffer, so the row
later completes with a corrupted description: inserting the legend page
changes the emitted records. -/
theorem legend_page_transparent_cex :
    pageIsLegend (runPagesT initState [pgHeaderOpen]).pending pgLegendX = true ∧
    pagePending (runPagesT initState [pgHeaderOpen]).pending pgLegendX ≠
      (runPagesT initState [pgHeaderOpen]).pending ∧
    (parse_pdf_to_rows [pgHeaderOpen, pgLegendX, pgTail]).map
        (List.map StampedRow.servicesProvided) = some [svcCorrupt] ∧
    (parse_pdf_to_rows [pgHeaderOpen, pgTail]).map
        (List.map StampedRow.servicesProvided) = some [svcClean] ∧
    svcCorrupt ≠ svcClean := by
  refine ⟨by decide, by decide, ?_, ?_, by decide⟩
  · decide
  · decide

/-- A digit character is not whitespace. -/
theorem isDigit_not_space (c : Char) (h : c.isDigit = true) : isPySpace c = false := by
  simp [Char.isDigit] at h
  obtain ⟨h1, h2⟩ := h
  have h1' : 48 ≤ c.toNat := h1
  have h2' : c.toNat ≤ 57 := h2
  have hc : c = Char.ofNat c.toNat := (Char.ofNat_toNat c).symm
  rw [hc]
  interval_cases hn : c.toNat <;> decide

/-- A successful leftmost search comes from the matcher succeeding at
some position. -/
theorem scanSearch_elim {β : Type} (tryAt : Bool → List Char → Option β) :
    ∀ (s : List Char) (pw : Bool) (r : β),
      scanSearch tryAt pw s = some r → ∃ pw' s', tryAt pw' s' = some r := by
  intro s
  induction s with
  | nil =>
    intro pw r h
    rw [scanSearch] at h
    cases ht : tryAt pw [] with
    | some x => rw [ht] at h; exact ⟨pw, [], by rw [ht, ← h]⟩
    | none => rw [ht] at h; simp at h
  | cons c cs ih =>
    intro pw r h
    rw [scanSearch] at h
    cases ht : tryAt pw (c :: cs) with
    | some x => rw [ht] at h; exact ⟨pw, c :: cs, by rw [ht, ← h]⟩
    | none => rw [ht] at h; exact ih (isWordChar c) r h

/-- The Claim matcher only captures the letter T followed by at least
seven digits. -/
theorem claimAt_shape {pw : Bool} {s g : List Char} (h : claimAt pw s = some g) :
    ∃ ds, g = 'T' :: ds ∧ ds.all Char.isDigit = true ∧ 7 ≤ ds.length := by
  unfold claimAt at h
  split at h
  · exact absurd h (by simp)
  · split at h
    · exact absurd h (by simp)
    · rename_i rest _
      simp only [] at h
      split at h
      · rename_i t2
        split at h
        · cases h
          exact ⟨_, rfl, List.all_takeWhile, by assumption⟩
        · exact absurd h (by simp)
      · exact absurd h (by simp)

/-- Every token produced by whitespace splitting is nonempty and free
of whitespace. -/
theorem wsTokensAux_emit :
    ∀ (s cur : List Char), cur.all (fun c => !isPySpace c) = true →
      ∀ t ∈ wsTokensAux cur s, t ≠ [] ∧ t.all (fun c => !isPySpace c) = true := by
  intro s
  induction s with
  | nil =>
    intro cur hcur t ht
    rw [wsTokensAux] at ht
    split at ht
    · simp at ht
    · rename_i hne
      rw [List.mem_singleton] at ht
      subst ht
      constructor
      · simp only [ne_eq, List.reverse_eq_nil_iff]
        simp only [List.isEmpty_eq_true] at hne
        exact hne
      · rw [List.all_reverse]
        exact hcur
  | cons c cs ih =>
    intro cur hcur t ht
    rw [wsTokensAux] at ht
    split at ht
    · rename_i hsp
      split at ht
      · exact ih [] rfl t ht
      · rename_i hne
        rcases List.mem_cons.mp ht with h1 | h2
        · subst h1
          refine ⟨?_, by rw [List.all_reverse]; exact hcur⟩
          simp only [ne_eq, List.reverse_eq_nil_iff]
          simp only [List.isEmpty_eq_true] at hne
          exact hne
        · exact ih [] rfl t h2
    · rename_i hsp
      refine ih (c :: cur) ?_ t ht
      simp only [List.all_cons, hcur, Bool.and_true]
      simp only [Bool.not_eq_true] at hsp
      simp only [Bool.not_eq_true']
      exact hsp

/-- Whitespace splitting passes over a whitespace-free block whole. -/
theorem wsTokensAux_token :
    ∀ (t rest cur : List Char), t.all (fun c => !isPySpace c) = true →
      wsTokensAux cur (t ++ rest) = wsTokensAux (t.reverse ++ cur) rest := by
  intro t
  induction t with
  | nil => intro rest cur _; simp
  | cons c ts ih =>
    intro rest cur hall
    simp only [List.all_cons, Bool.and_eq_true] at hall
    rw [List.cons_append, wsTokensAux]
    rw [if_neg (by simp only [Bool.not_eq_true'] at hall; rw [hall.1]; simp)]
    rw [ih rest (c :: cur) hall.2]
    congr 1
    simp

/-- Splitting the single-space join of nonempty whitespace-free tokens
recovers the tokens. -/
theorem wsTokens_join :
    ∀ toks : List (List Char),
      (∀ t ∈ toks, t ≠ [] ∧ t.all (fun c => !isPySpace c) = true) →
      wsTokens (List.intercalate [' '] toks) = toks := by
  intro toks
  induction toks with
  | nil => intro _; rfl
  | cons t ts ih =>
    intro h
    obtain ⟨ht1, ht2⟩ := h t (by simp)
    cases ts with
    | nil =>
      show wsTokensAux [] (List.intercalate [' '] [t]) = [t]
      rw [show List.intercalate [' '] [t] = t by simp [List.intercalate]]
      rw [show (t : List Char) = t ++ [] by simp, wsTokensAux_token t [] [] ht2]
      rw [wsTokensAux]
      rw [if_neg (by simp [List.isEmpty_eq_true, ht1])]
      simp
    | cons t2 ts2 =>
      rw [show List.intercalate [' '] (t :: t2 :: ts2) =
            t ++ (' ' :: List.intercalate [' '] (t2 :: ts2)) by
          simp [List.intercalate, List.intersperse]]
      show wsTokensAux [] _ = _
      rw [wsTokensAux_token t _ [] ht2]
      rw [wsTokensAux]
      rw [if_pos (by decide)]
      rw [if_neg (by simp [List.isEmpty_eq_true, ht1])]
      rw [show wsTokensAux [] (List.intercalate [' '] (t2 :: ts2)) =
            wsTokens (List.intercalate [' '] (t2 :: ts2)) from rfl]
      rw [ih (fun x hx => h x (List.mem_cons_of_mem _ hx))]
      simp

/-- Single-space whitespace normalization is idempotent. -/
theorem squashWs_idem (g : List Char) : squashWs (squashWs g) = squashWs g := by
  unfold squashWs
  rw [show wsTokens (List.intercalate [' '] (wsTokens g)) = wsTokens g from
    wsTokens_join (wsTokens g) (fun t ht => wsTokensAux_emit g [] rfl t ht)]

/-- A nonempty whitespace-free string is fixed by the single-space
normalization. -/
theorem squashWs_fix (g : List Char) (h1 : g ≠ [])
    (h2 : g.all (fun c => !isPySpace c) = true) : squashWs g = g := by
  unfold squashWs
  rw [show wsTokens g = [g] from ?_]
  · simp [List.intercalate]
  · show wsTokensAux [] g = [g]
    rw [show (g : List Char) = g ++ [] by simp, wsTokensAux_token g [] [] h2]
    rw [wsTokensAux]
    rw [if_neg (by simp [List.isEmpty_eq_true, h1])]
    simp

/-- The captured claim identifier is nonempty, whitespace-free, and of
the shape T followed by at least seven digits. -/
theorem claimAt_value_shape {pw : Bool} {s g : List Char}
    (h : claimAt pw s = some g) :
    g ≠ [] ∧ g.all (fun c => !isPySpace c) = true ∧
      ∃ ds, g = 'T' :: ds ∧ ds.all Char.isDigit = true ∧ 7 ≤ ds.length := by
  obtain ⟨ds, hg, hds, hlen⟩ := claimAt_shape h
  subst hg
  refine ⟨by simp, ?_, ds, rfl, hds, hlen⟩
  rw [List.all_cons]
  rw [Bool.and_eq_true]
  constructor
  · decide
  · refine List.all_eq_true.mpr fun c hc => ?_
    have hd : c.isDigit = true := List.all_eq_true.mp hds c hc
    rw [isDigit_not_space c hd]
    rfl

/-- C10: whenever extract_header_fields returns a Claim value, that
value is the letter T followed by at least seven digits and contains no
whitespace; and every non-null extracted field equals its own
single-space whitespace normalization. -/
theorem claim_id_format (t : List Char) :
    (∀ v, (extract_header_fields t).claim = some v →
        ∃ ds, v = 'T' :: ds ∧ ds.all Char.isDigit = true ∧ 7 ≤ ds.length ∧
          v.all (fun c => !isPySpace c) = true) ∧
    ∀ o ∈ headerFieldList (extract_header_fields t), ∀ v, o = some v →
      squashWs v = v := by
  constructor
  · intro v hv
    have hv' : (scanSearch claimAt false t).map squashWs = some v := hv
    rw [Option.map_eq_some'] at hv'
    obtain ⟨g, hg, hgv⟩ := hv'
    obtain ⟨pw', s', hat⟩ := scanSearch_elim claimAt t false g hg
    obtain ⟨hne, hnws, ds, hds1, hds2, hds3⟩ := claimAt_value_shape hat
    have : squashWs g = g := squashWs_fix g hne hnws
    rw [this] at hgv
    subst hgv
    exact ⟨ds, hds1, hds2, hds3, hnws⟩
  · intro o ho v hv
    have : ∃ g, o = (some g).map squashWs ∧ squashWs g = v := by
      unfold extract_header_fields headerFieldList at ho
      simp only [List.mem_cons, List.mem_singleton, List.not_mem_nil, or_false] at ho
      rcases ho with h | h | h | h | h | h | h | h <;>
        (subst h
         rw [Option.map_eq_some'] at hv
         obtain ⟨g, hg, hgv⟩ := hv
         exact ⟨g, by rw [hg], hgv⟩)
    obtain ⟨g, _, hgv⟩ := this
    rw [← hgv]
    exact squashWs_idem g

/-- Witness for the C10 theorem on a concrete header page. -/
theorem claim_id_format_witness :
    (extract_header_fields pgClaimOnly).claim = some clmVal ∧
    (∃ ds, clmVal = 'T' :: ds ∧ ds.all Char.isDigit = true ∧ 7 ≤ ds.length ∧
      clmVal.all (fun c => !isPySpace c) = true) ∧
    squashWs clmVal = clmVal :=
  ⟨by decide, (claim_id_format pgClaimOnly).1 clmVal (by decide),
   (claim_id_format pgClaimOnly).2 (some clmVal) (by decide) clmVal rfl⟩

/-- Substituting non-breaking spaces is the identity on a string
without them. -/
theorem map_nbsp_id (L : List Char) (h : ∀ c ∈ L, c ≠ nbspChar) :
    L.map (fun c => if c = nbspChar then ' ' else c) = L := by
  induction L with
  | nil => rfl
  | cons c cs ih =>
    rw [List.map_cons, if_neg (h c (by simp)), ih (fun x hx => h x (List.mem_cons_of_mem _ hx))]

/-- The carriage-return collapse steps over any other character. -/
theorem crlf_cons_ne (c : Char) (cs : List Char) (h : c ≠ '\r') :
    crlf (c :: cs) = c :: crlf cs := by
  rw [crlf.eq_def]
  split
  · rename_i heq
    exact absurd heq (by simp)
  · rename_i cs2 heq
    injection heq with h1 h2
    exact absurd h1 h
  · rename_i c2 cs2 hno heq
    injection heq with h1 h2
    subst h1
    subst h2
    rfl

/-- The carriage-return collapse is the identity without break
characters. -/
theorem crlf_id (L : List Char) (h : ∀ c ∈ L, isLineBreakChar c = false) :
    crlf L = L := by
  induction L with
  | nil => rfl
  | cons c cs ih =>
    have hc : c ≠ '\r' := by
      intro he
      subst he
      exact absurd (h '\r' (by simp)) (by decide)
    rw [crlf_cons_ne c cs hc, ih (fun x hx => h x (List.mem_cons_of_mem _ hx))]

/-- Splitting text without break characters yields one line. -/
theorem splitlinesAux_nobreak :
    ∀ (s acc : List Char), (∀ c ∈ s, isLineBreakChar c = false) →
      splitlinesAux s acc = [acc.reverse ++ s] := by
  intro s
  induction s with
  | nil => intro acc _; simp [splitlinesAux]
  | cons c cs ih =>
    intro acc h
    rw [splitlinesAux, if_neg (by rw [h c (by simp)]; simp)]
    rw [ih (c :: acc) (fun x hx => h x (List.mem_cons_of_mem _ hx))]
    simp

/-- splitlines of a nonempty break-free string is that one line. -/
theorem pySplitlines_single (L : List Char) (h0 : L ≠ [])
    (h : ∀ c ∈ L, isLineBreakChar c = false) :
    pySplitlines L = [L] := by
  unfold pySplitlines
  rw [crlf_id L h]
  cases hL : L with
  | nil => exact absurd hL h0
  | cons c cs =>
    subst hL
    show splitlinesAux (c :: cs) [] = [c :: cs]
    rw [splitlinesAux_nobreak (c :: cs) [] h]
    simp

/-- The no-double-whitespace property passes to the tail. -/
theorem noDoubleHT_tail {c : Char} {cs : List Char}
    (h : noDoubleHT (c :: cs) = true) : noDoubleHT cs = true := by
  cases cs with
  | nil => rfl
  | cons c2 cs2 =>
    rw [noDoubleHT, Bool.and_eq_true] at h
    exact h.2

/-- Collapsing runs of horizontal whitespace is the identity when no
two adjacent characters are both spaces or tabs. -/
theorem collapseHTAux_id :
    ∀ L : List Char, noDoubleHT L = true → collapseHTAux false L = L := by
  intro L
  induction L with
  | nil => intro _; rfl
  | cons c cs ih =>
    intro hnd
    rw [collapseHTAux]
    by_cases hc : isHT c = true
    · rw [if_pos hc]
      rw [if_neg (by simp)]
      cases cs with
      | nil =>
        rw [show ((([] : List Char).head?.map isHT).getD false) = false from rfl]
        rw [if_neg (by simp)]
        rfl
      | cons c2 cs2 =>
        have hc2 : isHT c2 = false := by
          rw [noDoubleHT, Bool.and_eq_true] at hnd
          have := hnd.1
          rw [hc] at this
          simpa using this
        rw [show (((c2 :: cs2).head?.map isHT).getD false) = isHT c2 from rfl]
        rw [hc2]
        rw [if_neg (by simp)]
        rw [ih (noDoubleHT_tail hnd)]
    · rw [if_neg hc, ih (noDoubleHT_tail hnd)]

/-- Stripping is the identity when neither end is whitespace. -/
theorem pyStrip_id (L : List Char)
    (h4 : ∀ c, L.head? = some c → isPySpace c = false)
    (h5 : ∀ c, L.getLast? = some c → isPySpace c = false) :
    pyStrip L = L := by
  unfold pyStrip
  have hd : L.dropWhile isPySpace = L := by
    cases hL : L with
    | nil => rfl
    | cons c cs =>
      rw [List.dropWhile_cons, if_neg (by rw [h4 c (by rw [hL]; rfl)]; simp)]
  rw [hd]
  have hrev : L.reverse.dropWhile isPySpace = L.reverse := by
    cases hR : L.reverse with
    | nil => rfl
    | cons c cs =>
      have : L.getLast? = some c := by
        rw [← List.head?_reverse, hR]
        rfl
      rw [List.dropWhile_cons, if_neg (by rw [h5 c this]; simp)]
  rw [hrev, List.reverse_reverse]

/-- C9 (amended): normalize_page_text maps a nonempty single-line
string that is already normalized - no break characters, no non-breaking
space, no run of two or more horizontal whitespace characters, no
leading or trailing whitespace - to the one-element list holding it
unchanged. -/
theorem normalize_idempotent (L : List Char)
    (h0 : L ≠ [])
    (h1 : ∀ c ∈ L, isLineBreakChar c = false)
    (h2 : ∀ c ∈ L, c ≠ nbspChar)
    (h3 : noDoubleHT L = true)
    (h4 : ∀ c, L.head? = some c → isPySpace c = false)
    (h5 : ∀ c, L.getLast? = some c → isPySpace c = false) :
    normalize_page_text L = [L] := by
  unfold normalize_page_text
  rw [map_nbsp_id L h2]
  rw [pySplitlines_single L h0 h1]
  rw [List.map_singleton]
  rw [show collapseHT L = collapseHTAux false L from rfl]
  rw [collapseHTAux_id L h3]
  rw [pyStrip_id L h4 h5]

/-- Witness for the C9 theorem on a concrete normalized line. -/
theorem normalize_idempotent_witness :
    (rowPlain ≠ [] ∧
      (∀ c ∈ rowPlain, isLineBreakChar c = false) ∧
      (∀ c ∈ rowPlain, c ≠ nbspChar) ∧
      noDoubleHT rowPlain = true ∧
      (∀ c, rowPlain.head? = some c → isPySpace c = false) ∧
      (∀ c, rowPlain.getLast? = some c → isPySpace c = false)) ∧
    normalize_page_text rowPlain = [rowPlain] := by
  refine ⟨⟨by decide, by decide, by decide, by decide, by decide, by decide⟩, ?_⟩
  exact normalize_idempotent rowPlain (by decide) (by decide) (by decide)
    (by decide) (by decide) (by decide)

/-- C9 counterexample: the empty string, although normalized in the
claim's sense, maps to the empty list rather than to the one-element
list holding it; and a string with an inner line feed maps to two
lines. -/
theorem normalize_idempotent_cex :
    normalize_page_text [] = [] ∧
    ([] : List (List Char)) ≠ [([] : List Char)] ∧
    normalize_page_text nlAB = [['a'], ['b']] ∧
    [['a'], ['b']] ≠ [nlAB] := by
  refine ⟨by decide, by decide, by decide, by decide⟩

end Claims
